import Mathlib

/-!
Verification of the DTF gang-sheet layout engine (`src/app.py`).

The Python source is shallowly embedded below.  Dimensions are inches; the
Python floats only ever hold exact decimal values produced by `+ - * /`, so
they are modelled as rationals (`ℚ`).  `math.ceil` is `Int.ceil`.

Embedded functions (Python name → Lean name):
* module constants `ROLL_WIDTH_IN`, `MARGIN_IN`  → same names;
* `optimize_layout_distributed`                  → same name, built from
  `orient` (lines 45-59), `buildRows` (lines 61-72) and `placeRows`
  (lines 74-94);
* `billable_len = math.ceil(actual_h / 12) * 12` (line 174) → `billable_len`;
* the upload width check `auto_w > ROLL_WIDTH_IN` (line 154) → `uploadReject`;
* the auto-fill `while True` loop (lines 182-189), which appends one copy of
  the last inventory item and repacks until the content length exceeds the
  billable length → `autoFillCount`, written with explicit fuel since the
  Python loop is unbounded.

An `Artwork` record keeps the `id`, `print_w`, `print_h` fields of the
inventory dicts; the raster `image` field never influences the layout
numbers, so it is omitted.  The processed dicts (`{'id','image','w','h'}`)
become `Item`; the orientation step's local `rotated` flag is recorded on
`Item` so that rotation decisions can be stated.
-/

/-- Python: `ROLL_WIDTH_IN = 22`. -/
def ROLL_WIDTH_IN : ℚ := 22

/-- Python: `MARGIN_IN = 0.375`. -/
def MARGIN_IN : ℚ := 3 / 8

/-- One inventory entry: `{'id': ..., 'print_w': ..., 'print_h': ...}`. -/
structure Artwork where
  id : String
  print_w : ℚ
  print_h : ℚ
deriving DecidableEq

/-- A processed entry `{'id', 'w', 'h'}` plus the orientation step's local
`rotated` flag. -/
structure Item where
  id : String
  w : ℚ
  h : ℚ
  rotated : Bool
deriving DecidableEq

/-- A placed entry `{'id', 'w', 'h', 'x', 'y'}`. -/
structure Placed where
  id : String
  w : ℚ
  h : ℚ
  x : ℚ
  y : ℚ
deriving DecidableEq

/-- Orientation step of `optimize_layout_distributed` (app.py lines 45-59):

```
can_fit_normal = (w_orig + (2 * MARGIN_IN)) <= roll_width_in
can_fit_rotated = (h_orig + (2 * MARGIN_IN)) <= roll_width_in
rotated = False
w, h = w_orig, h_orig
if can_fit_rotated:
    if h_orig < w_orig or not can_fit_normal:
        w, h = h_orig, w_orig
        rotated = True
```
-/
def orient (roll_width_in : ℚ) (a : Artwork) : Item :=
  let can_fit_normal := a.print_w + 2 * MARGIN_IN ≤ roll_width_in
  let can_fit_rotated := a.print_h + 2 * MARGIN_IN ≤ roll_width_in
  if can_fit_rotated ∧ (a.print_h < a.print_w ∨ ¬can_fit_normal) then
    { id := a.id, w := a.print_h, h := a.print_w, rotated := true }
  else
    { id := a.id, w := a.print_w, h := a.print_h, rotated := false }

/-- `item_w_with_min_margin = art['w'] + (MARGIN_IN * 2)` (app.py line 65). -/
def fwI (it : Item) : ℚ := it.w + MARGIN_IN * 2

/-- Sum of the margin-inclusive footprints of a row (the running
`current_row_w`). -/
def sumFW : List Item → ℚ
  | [] => 0
  | it :: l => fwI it + sumFW l

/-- `total_art_w = sum(item['w'] for item in row)` (app.py line 78). -/
def sumW : List Item → ℚ
  | [] => 0
  | it :: l => it.w + sumW l

/-- `row_max_h = max(item['h'] for item in row)` (app.py line 77); `0` on an
empty row (Python only evaluates it on non-empty rows). -/
def rowMaxH : List Item → ℚ
  | [] => 0
  | [it] => it.h
  | it :: it' :: l => max it.h (rowMaxH (it' :: l))

/-- Row grouping loop of `optimize_layout_distributed` (app.py lines 61-72):

```
rows, current_row, current_row_w = [], [], 0
for art in sorted_art:
    item_w_with_min_margin = art['w'] + (MARGIN_IN * 2)
    if current_row_w + item_w_with_min_margin > roll_width_in and current_row:
        rows.append(current_row)
        current_row, current_row_w = [], 0
    current_row.append(art)
    current_row_w += item_w_with_min_margin
if current_row: rows.append(current_row)
```
-/
def buildRowsAux (roll_width_in : ℚ) (cur : List Item) (curW : ℚ) :
    List Item → List (List Item)
  | [] => if cur = [] then [] else [cur]
  | a :: rest =>
    if roll_width_in < curW + fwI a ∧ cur ≠ [] then
      cur :: buildRowsAux roll_width_in [a] (fwI a) rest
    else
      buildRowsAux roll_width_in (cur ++ [a]) (curW + fwI a) rest

def buildRows (roll_width_in : ℚ) (items : List Item) : List (List Item) :=
  buildRowsAux roll_width_in [] 0 items

/-- Inner placement loop for one row (app.py lines 88-91):

```
for item in row:
    v_offset = (row_max_h - item['h']) / 2
    placed_items.append({**item, 'x': curr_x, 'y': curr_y + v_offset})
    curr_x += item['w'] + h_gap
```
-/
def placeRowAux (row_max_h curr_y h_gap : ℚ) : ℚ → List Item → List Placed
  | _, [] => []
  | curr_x, it :: rest =>
    { id := it.id, w := it.w, h := it.h, x := curr_x,
      y := curr_y + (row_max_h - it.h) / 2 } ::
      placeRowAux row_max_h curr_y h_gap (curr_x + it.w + h_gap) rest

/-- One iteration of the row placement loop (app.py lines 76-92). -/
def placeRow (roll_width_in : ℚ) (row : List Item) (curr_y : ℚ) :
    List Placed × ℚ :=
  let row_max_h := rowMaxH row
  let total_art_w := sumW row
  let remaining_w := roll_width_in - MARGIN_IN * 2 - total_art_w
  let gx : ℚ × ℚ :=
    if 1 < row.length then (remaining_w / ((row.length : ℚ) - 1), MARGIN_IN)
    else (0, MARGIN_IN + remaining_w / 2)
  (placeRowAux row_max_h curr_y gx.1 gx.2 row, curr_y + row_max_h + MARGIN_IN)

/-- Placement loop over all rows, starting at `curr_y = MARGIN_IN`
(app.py lines 74-93). -/
def placeRows (roll_width_in : ℚ) : List (List Item) → ℚ → List Placed × ℚ
  | [], curr_y => ([], curr_y)
  | row :: rs, curr_y =>
    let pr := placeRow roll_width_in row curr_y
    let prs := placeRows roll_width_in rs pr.2
    (pr.1 ++ prs.1, prs.2)

/-- The sort key order: `x` may precede `y` when `x.h ≥ y.h`. -/
def keyGE (x y : Item) : Prop := y.h ≤ x.h

instance : DecidableRel keyGE := fun x y => inferInstanceAs (Decidable (y.h ≤ x.h))

instance : IsTotal Item keyGE := ⟨fun a b => le_total b.h a.h⟩

instance : IsTrans Item keyGE := ⟨fun _ _ _ h1 h2 => le_trans h2 h1⟩

/-- The stable descending-by-height sort
`sorted(processed_art, key=lambda x: x['h'], reverse=True)` (app.py line 61).
Descending order with ties kept in input order is exactly insertion sort with
the total preorder `y.h ≤ x.h`. -/
def sortItems (l : List Item) : List Item :=
  List.insertionSort keyGE l

/-- `optimize_layout_distributed(artworks, roll_width_in)` (app.py lines
42-94): returns `(placed_items, curr_y)`. -/
def optimize_layout_distributed (artworks : List Artwork)
    (roll_width_in : ℚ) : List Placed × ℚ :=
  let processed_art := artworks.map (orient roll_width_in)
  let sorted_art := sortItems processed_art
  let rows := buildRows roll_width_in sorted_art
  placeRows roll_width_in rows MARGIN_IN

/-- `billable_len = math.ceil(actual_h / 12) * 12` (app.py line 174). -/
def billable_len (actual_h : ℚ) : ℤ := ⌈actual_h / 12⌉ * 12

/-- Upload-time width check `auto_w > ROLL_WIDTH_IN` (app.py line 154): the
only rejection path in the program. -/
def uploadReject (auto_w : ℚ) : Bool := ROLL_WIDTH_IN < auto_w

/-- Auto-fill loop body (app.py lines 184-189), with explicit fuel:

```
added_count = 0
while True:
    temp_inv.append(last_item)
    _, test_h = optimize_layout_distributed(temp_inv, ROLL_WIDTH_IN)
    if test_h > billable_len: break
    added_count += 1
```
-/
def autoFillAux (roll_width_in : ℚ) (B : ℤ) (last_item : Artwork) :
    List Artwork → ℕ → ℕ → Option ℕ
  | _, 0, _ => none
  | temp_inv, fuel + 1, added_count =>
    let temp_inv' := temp_inv ++ [last_item]
    let test_h := (optimize_layout_distributed temp_inv' roll_width_in).2
    if (B : ℚ) < test_h then some added_count
    else autoFillAux roll_width_in B last_item temp_inv' fuel (added_count + 1)

/-- The auto-fill advisor (app.py lines 182-189): duplicates the last
inventory item until the repacked content length exceeds the billable length
of the original inventory.  Returns `none` when the fuel runs out before the
loop breaks (the Python loop is unbounded) or when the inventory is empty
(the Python code would crash on `inventory[-1]`; the UI guards against it). -/
def autoFillCount (roll_width_in : ℚ) (inventory : List Artwork)
    (fuel : ℕ) : Option ℕ :=
  match inventory.getLast? with
  | none => none
  | some last_item =>
    autoFillAux roll_width_in
      (billable_len (optimize_layout_distributed inventory roll_width_in).2)
      last_item inventory fuel 0

/-- Helper to evaluate `Int.ceil` on concrete rationals. -/
theorem ceil_eval (q : ℚ) (z : ℤ) (h1 : (z : ℚ) - 1 < q) (h2 : q ≤ z) :
    ⌈q⌉ = z :=
  Int.ceil_eq_iff.mpr ⟨h1, h2⟩

example :
    optimize_layout_distributed [] ROLL_WIDTH_IN = ([], MARGIN_IN) := by
  norm_num [optimize_layout_distributed, sortItems, buildRows, buildRowsAux,
    placeRows, ROLL_WIDTH_IN, MARGIN_IN]

example :
    orient 22 ⟨"a", 15, 10⟩ = ⟨"a", 10, 15, true⟩ := by
  norm_num [orient, MARGIN_IN]

example :
    (optimize_layout_distributed
      [⟨"a", 10, 10⟩, ⟨"b", 10, 10⟩, ⟨"c", 10, 10⟩] 22).1 =
      [⟨"a", 10, 10, 3/8, 3/8⟩, ⟨"b", 10, 10, 93/8, 3/8⟩,
       ⟨"c", 10, 10, 6, 43/4⟩] := by
  norm_num [optimize_layout_distributed, sortItems, buildRows, buildRowsAux,
    placeRows, placeRow, placeRowAux, rowMaxH, sumW, fwI, orient,
    List.insertionSort, List.orderedInsert, MARGIN_IN]

example : autoFillCount 22 [⟨"a", 10, 10⟩] 5 = some 1 := by
  norm_num [autoFillCount, autoFillAux, billable_len,
    optimize_layout_distributed, sortItems, buildRows, buildRowsAux,
    placeRows, placeRow, placeRowAux, rowMaxH, sumW, fwI, orient,
    List.insertionSort, List.orderedInsert, MARGIN_IN,
    ceil_eval (43/48 : ℚ) 1 (by norm_num) (by norm_num)]

/-! ### Billable length quantization -/

theorem billable_dvd (c : ℚ) : (12 : ℤ) ∣ billable_len c :=
  dvd_mul_left _ _

theorem billable_ge (c : ℚ) : c ≤ (billable_len c : ℚ) := by
  have h := Int.le_ceil (c / 12)
  have h12 : (0 : ℚ) < 12 := by norm_num
  calc c = c / 12 * 12 := by field_simp
    _ ≤ (⌈c / 12⌉ : ℚ) * 12 := by
        exact mul_le_mul_of_nonneg_right h (by norm_num)
    _ = (billable_len c : ℚ) := by push_cast [billable_len]; ring

theorem billable_min (c : ℚ) : (billable_len c : ℚ) - 12 < c := by
  have h := Int.ceil_lt_add_one (c / 12)
  have : ((⌈c / 12⌉ : ℚ) - 1) * 12 < c / 12 * 12 := by
    apply mul_lt_mul_of_pos_right _ (by norm_num : (0:ℚ) < 12)
    linarith
  have hc : c / 12 * 12 = c := by field_simp
  push_cast [billable_len]
  linarith [this, hc.symm ▸ this]

theorem billable_gt {c : ℚ} {b : ℤ} (h : (b : ℚ) < c) : b < billable_len c := by
  have := billable_ge c
  exact_mod_cast lt_of_lt_of_le h this

theorem billable_eq_of {c : ℚ} {b : ℤ} (hd : (12 : ℤ) ∣ b)
    (h1 : (b : ℚ) - 12 < c) (h2 : c ≤ (b : ℚ)) : billable_len c = b := by
  obtain ⟨k, rfl⟩ := hd
  unfold billable_len
  have hceil : ⌈c / 12⌉ = k := by
    apply ceil_eval
    · rw [lt_div_iff₀ (by norm_num : (0:ℚ) < 12)]
      push_cast at h1 ⊢
      linarith
    · rw [div_le_iff₀ (by norm_num : (0:ℚ) < 12)]
      push_cast at h2 ⊢
      linarith
  rw [hceil, mul_comm]

/-- C2: for every content length `L > 0`, `billable_len L` is a multiple of
12, is at least `L`, and is minimal (`billable_len L - 12 < L`). -/
theorem billable_quantization (L : ℚ) (hL : 0 < L) :
    billable_len L % 12 = 0 ∧ L ≤ (billable_len L : ℚ) ∧
      (billable_len L : ℚ) - 12 < L :=
  ⟨by simp [billable_len, Int.mul_emod_left], billable_ge L, billable_min L⟩

/-- Witness for C2 at the content length `L = 43/4` produced by packing two
10×10 artworks. -/
theorem billable_quantization_witness :
    billable_len (43/4) % 12 = 0 ∧ (43/4 : ℚ) ≤ (billable_len (43/4) : ℚ) ∧
      (billable_len (43/4) : ℚ) - 12 < (43/4 : ℚ) :=
  billable_quantization (43/4) (by norm_num)

/-! ### Orientation step -/

/-- C8: if the artwork does not fit normally but fits rotated, the
orientation step rotates it: `rotated = true` and effective dimensions are
the swapped originals. -/
theorem orient_forced_rotation (R : ℚ) (a : Artwork)
    (hw : R < a.print_w + 2 * MARGIN_IN) (hh : a.print_h + 2 * MARGIN_IN ≤ R) :
    orient R a = ⟨a.id, a.print_h, a.print_w, true⟩ := by
  unfold orient
  rw [if_pos ⟨hh, Or.inr (not_le.mpr hw)⟩]

/-- Witness for C8: a 25×10 artwork on the 22-inch roll is force-rotated. -/
theorem orient_forced_rotation_witness :
    orient 22 ⟨"art", 25, 10⟩ = ⟨"art", 10, 25, true⟩ :=
  orient_forced_rotation 22 ⟨"art", 25, 10⟩
    (by norm_num [MARGIN_IN]) (by norm_num [MARGIN_IN])

/-- Counterexample to C4 as stated: a 15×10 artwork fits in both
orientations and has height strictly smaller than width, yet the code
rotates it (the claim asserts rotation happens only when height exceeds
width). -/
theorem orient_both_fit_counterexample :
    (15 : ℚ) + 2 * MARGIN_IN ≤ 22 ∧ (10 : ℚ) + 2 * MARGIN_IN ≤ 22 ∧
      (orient 22 ⟨"art", 15, 10⟩).rotated = true ∧ ¬((10 : ℚ) > 15) := by
  refine ⟨by norm_num [MARGIN_IN], by norm_num [MARGIN_IN], ?_, by norm_num⟩
  norm_num [orient, MARGIN_IN]

/-- C4 (amended): when both orientations fit, the code rotates exactly when
the original height is strictly SMALLER than the original width (making the
item taller and narrower); otherwise (including squares) it is kept as-is. -/
theorem orient_both_fit (R : ℚ) (a : Artwork)
    (h1 : a.print_w + 2 * MARGIN_IN ≤ R) (h2 : a.print_h + 2 * MARGIN_IN ≤ R) :
    ((orient R a).rotated = true ↔ a.print_h < a.print_w) ∧
      (a.print_h < a.print_w → orient R a = ⟨a.id, a.print_h, a.print_w, true⟩) ∧
      (¬a.print_h < a.print_w → orient R a = ⟨a.id, a.print_w, a.print_h, false⟩) := by
  by_cases hlt : a.print_h < a.print_w
  · have : orient R a = ⟨a.id, a.print_h, a.print_w, true⟩ := by
      unfold orient
      rw [if_pos ⟨h2, Or.inl hlt⟩]
    simp [this, hlt]
  · have : orient R a = ⟨a.id, a.print_w, a.print_h, false⟩ := by
      unfold orient
      rw [if_neg]
      rintro ⟨-, hor | hnf⟩
      · exact hlt hor
      · exact hnf h1
    simp [this, hlt]

/-- Witness for C4 (amended) at the 15×10 artwork. -/
theorem orient_both_fit_witness :
    ((orient 22 ⟨"art", 15, 10⟩).rotated = true ↔ (10 : ℚ) < 15) ∧
      ((10 : ℚ) < 15 → orient 22 ⟨"art", 15, 10⟩ = ⟨"art", 10, 15, true⟩) ∧
      (¬(10 : ℚ) < 15 → orient 22 ⟨"art", 15, 10⟩ = ⟨"art", 15, 10, false⟩) :=
  orient_both_fit 22 ⟨"art", 15, 10⟩
    (by norm_num [MARGIN_IN]) (by norm_num [MARGIN_IN])

/-- Counterexample to C3 as stated: a 22×22 artwork exceeds the roll width
(with margins) in both orientations, yet nothing fails: the upload check
does not reject it (its condition is `auto_w > ROLL_WIDTH_IN`, ignoring
margins and rotation) and the packer still places it. -/
theorem too_wide_counterexample :
    ROLL_WIDTH_IN < (22 : ℚ) + 2 * MARGIN_IN ∧
      ROLL_WIDTH_IN < (22 : ℚ) + 2 * MARGIN_IN ∧
      uploadReject 22 = false ∧
      (optimize_layout_distributed [⟨"art", 22, 22⟩] ROLL_WIDTH_IN).1.length = 1 := by
  refine ⟨by norm_num [MARGIN_IN, ROLL_WIDTH_IN],
    by norm_num [MARGIN_IN, ROLL_WIDTH_IN],
    by norm_num [uploadReject, ROLL_WIDTH_IN], ?_⟩
  norm_num [optimize_layout_distributed, sortItems, buildRows, buildRowsAux,
    placeRows, placeRow, placeRowAux, rowMaxH, sumW, fwI, orient,
    List.insertionSort, List.orderedInsert, MARGIN_IN, ROLL_WIDTH_IN]

/-- C3 (amended): an artwork too wide for the roll in both orientations is
NOT rejected: the orientation step keeps it unrotated and the packer places
it anyway (overflowing the roll).  No `ArtworkTooWide` failure exists in the
code. -/
theorem too_wide_not_rejected (R : ℚ) (a : Artwork)
    (hw : R < a.print_w + 2 * MARGIN_IN) (hh : R < a.print_h + 2 * MARGIN_IN) :
    orient R a = ⟨a.id, a.print_w, a.print_h, false⟩ ∧
      (optimize_layout_distributed [a] R).1.length = 1 := by
  have ho : orient R a = ⟨a.id, a.print_w, a.print_h, false⟩ := by
    unfold orient
    rw [if_neg]
    rintro ⟨hrot, -⟩
    exact absurd hrot (not_le.mpr hh)
  refine ⟨ho, ?_⟩
  simp [optimize_layout_distributed, sortItems, List.insertionSort,
    buildRows, buildRowsAux, placeRows, placeRow, placeRowAux]

/-- Witness for C3 (amended) at the 22×22 artwork on the 22-inch roll. -/
theorem too_wide_not_rejected_witness :
    orient 22 ⟨"art", 22, 22⟩ = ⟨"art", 22, 22, false⟩ ∧
      (optimize_layout_distributed [⟨"art", 22, 22⟩] 22).1.length = 1 :=
  too_wide_not_rejected 22 ⟨"art", 22, 22⟩
    (by norm_num [MARGIN_IN]) (by norm_num [MARGIN_IN])

/-! ### Empty inventory -/

/-- Counterexample to C7 as stated: packing the empty inventory yields
content length `MARGIN_IN = 3/8`, not `0`. -/
theorem empty_inventory_counterexample :
    (optimize_layout_distributed [] ROLL_WIDTH_IN).2 = MARGIN_IN ∧
      MARGIN_IN ≠ 0 := by
  constructor
  · norm_num [optimize_layout_distributed, sortItems, List.insertionSort,
      buildRows, buildRowsAux, placeRows]
  · norm_num [MARGIN_IN]

/-- C7 (amended): packing an empty inventory yields the empty placement
with content length `MARGIN_IN` (the initial `curr_y`), whose billable
length would be 12, not 0; the UI's inventory guard never invokes the
packer on an empty inventory. -/
theorem empty_inventory (R : ℚ) :
    optimize_layout_distributed [] R = ([], MARGIN_IN) ∧
      billable_len MARGIN_IN = 12 := by
  constructor
  · norm_num [optimize_layout_distributed, sortItems, List.insertionSort,
      buildRows, buildRowsAux, placeRows]
  · unfold billable_len
    rw [ceil_eval (MARGIN_IN / 12) 1 (by norm_num [MARGIN_IN])
      (by norm_num [MARGIN_IN])]
    norm_num

/-! ### Conservation: every artwork is placed exactly once -/

theorem placeRowAux_map_dims (mh cy g : ℚ) :
    ∀ (x : ℚ) (row : List Item),
      (placeRowAux mh cy g x row).map (fun p => (p.id, p.w, p.h)) =
        row.map (fun it => (it.id, it.w, it.h))
  | _, [] => rfl
  | x, it :: rest => by
    simp [placeRowAux, placeRowAux_map_dims mh cy g (x + it.w + g) rest]

theorem placeRows_fst_map (R : ℚ) :
    ∀ (rows : List (List Item)) (y : ℚ),
      ((placeRows R rows y).1).map (fun p => (p.id, p.w, p.h)) =
        rows.join.map (fun it => (it.id, it.w, it.h))
  | [], _ => rfl
  | row :: rs, y => by
    simp [placeRows, placeRow, placeRowAux_map_dims,
      placeRows_fst_map R rs]

theorem buildRowsAux_join (R : ℚ) :
    ∀ (l : List Item) (cur : List Item) (curW : ℚ),
      (buildRowsAux R cur curW l).join = cur ++ l
  | [], cur, curW => by
    by_cases h : cur = [] <;> simp [buildRowsAux, h]
  | a :: rest, cur, curW => by
    unfold buildRowsAux
    by_cases h : R < curW + fwI a ∧ cur ≠ []
    · rw [if_pos h]
      simp [buildRowsAux_join R rest]
    · rw [if_neg h]
      simp [buildRowsAux_join R rest]

theorem buildRows_join (R : ℚ) (l : List Item) :
    (buildRows R l).join = l := by
  simpa [buildRows] using buildRowsAux_join R l [] 0

theorem sortItems_perm (l : List Item) : (sortItems l).Perm l :=
  List.perm_insertionSort _ l

/-- C9: the packer neither drops nor duplicates artworks — the placed
entries' `(id, w, h)` triples are a permutation of the oriented input
artworks' triples — and each oriented entry's effective dimensions are the
original pair or the swapped pair. -/
theorem packer_conservation (artworks : List Artwork) (R : ℚ) :
    ((optimize_layout_distributed artworks R).1.map
        (fun p => (p.id, p.w, p.h))).Perm
      (artworks.map (fun a => ((orient R a).id, (orient R a).w, (orient R a).h)))
    ∧ ∀ a : Artwork,
        ((orient R a).w = a.print_w ∧ (orient R a).h = a.print_h) ∨
        ((orient R a).w = a.print_h ∧ (orient R a).h = a.print_w) := by
  constructor
  · have h1 : (optimize_layout_distributed artworks R).1.map
        (fun p => (p.id, p.w, p.h)) =
        (sortItems (artworks.map (orient R))).map
          (fun it => (it.id, it.w, it.h)) := by
      unfold optimize_layout_distributed
      rw [placeRows_fst_map, buildRows_join]
    rw [h1]
    have h2 := (sortItems_perm (artworks.map (orient R))).map
      (fun it : Item => (it.id, it.w, it.h))
    rw [List.map_map] at h2
    exact h2
  · intro a
    unfold orient
    by_cases h : a.print_h + 2 * MARGIN_IN ≤ R ∧
        (a.print_h < a.print_w ∨ ¬a.print_w + 2 * MARGIN_IN ≤ R)
    · rw [if_pos h]; right; exact ⟨rfl, rfl⟩
    · rw [if_neg h]; left; exact ⟨rfl, rfl⟩

/-! ### Row and placement geometry -/

/-- The effective dimensions produced by the orientation step are the
original pair or the swapped pair. -/
theorem orient_dims (R : ℚ) (a : Artwork) :
    ((orient R a).w = a.print_w ∧ (orient R a).h = a.print_h) ∨
      ((orient R a).w = a.print_h ∧ (orient R a).h = a.print_w) := by
  unfold orient
  by_cases h : a.print_h + 2 * MARGIN_IN ≤ R ∧
      (a.print_h < a.print_w ∨ ¬a.print_w + 2 * MARGIN_IN ≤ R)
  · rw [if_pos h]; right; exact ⟨rfl, rfl⟩
  · rw [if_neg h]; left; exact ⟨rfl, rfl⟩

theorem rowMaxH_mem : ∀ {row : List Item} {it : Item}, it ∈ row →
    it.h ≤ rowMaxH row
  | [], _, h => absurd h (List.not_mem_nil _)
  | [a], it, h => by
    rcases List.mem_singleton.mp h with rfl
    exact le_of_eq rfl
  | a :: b :: l, it, h => by
    rcases List.mem_cons.mp h with rfl | h'
    · exact le_max_left _ _
    · exact le_trans (rowMaxH_mem h') (le_max_right _ _)

theorem rowMaxH_nonneg : ∀ {row : List Item},
    (∀ it ∈ row, 0 ≤ it.h) → 0 ≤ rowMaxH row
  | [], _ => le_refl 0
  | a :: l, h => le_trans (h a (List.mem_cons_self a l)) (rowMaxH_mem (List.mem_cons_self a l))

theorem sumW_nonneg : ∀ {row : List Item},
    (∀ it ∈ row, 0 ≤ it.w) → 0 ≤ sumW row
  | [], _ => le_refl 0
  | a :: l, h => by
    have h1 := h a (List.mem_cons_self a l)
    have h2 := sumW_nonneg (fun it hit => h it (List.mem_cons_of_mem a hit))
    simp only [sumW]
    linarith

theorem sumFW_append_single (l : List Item) (a : Item) :
    sumFW (l ++ [a]) = sumFW l + fwI a := by
  induction l with
  | nil => simp [sumFW]
  | cons b l ih =>
    simp only [List.cons_append, sumFW]
    show fwI b + sumFW (l ++ [a]) = fwI b + sumFW l + fwI a
    rw [ih]
    ring

theorem sumFW_eq_sumW : ∀ (row : List Item),
    sumFW row = sumW row + (row.length : ℚ) * (MARGIN_IN * 2)
  | [] => by simp [sumFW, sumW]
  | a :: l => by
    simp only [sumFW, sumW, fwI, List.length_cons, sumFW_eq_sumW l]
    push_cast
    ring

/-- Invariant of every row the grouping loop emits: a row is a singleton
(the first item is always accepted) or its footprints fit the roll. -/
def RowOK (R : ℚ) (row : List Item) : Prop :=
  row.length ≤ 1 ∨ sumFW row ≤ R

theorem buildRowsAux_rowOK (R : ℚ) :
    ∀ (l cur : List Item) (curW : ℚ), curW = sumFW cur → RowOK R cur →
      ∀ row ∈ buildRowsAux R cur curW l, RowOK R row
  | [], cur, curW, _, hOK, row, hrow => by
    unfold buildRowsAux at hrow
    by_cases h : cur = []
    · rw [if_pos h] at hrow
      exact absurd hrow (List.not_mem_nil row)
    · rw [if_neg h] at hrow
      obtain rfl := List.mem_singleton.mp hrow
      exact hOK
  | a :: rest, cur, curW, hW, hOK, row, hrow => by
    unfold buildRowsAux at hrow
    by_cases h : R < curW + fwI a ∧ cur ≠ []
    · rw [if_pos h] at hrow
      rcases List.mem_cons.mp hrow with rfl | h'
      · exact hOK
      · exact buildRowsAux_rowOK R rest [a] (fwI a) (by simp [sumFW])
          (Or.inl (by simp)) row h'
    · rw [if_neg h] at hrow
      rcases not_and_or.mp h with hfit | hnil
      · push_neg at hfit
        refine buildRowsAux_rowOK R rest (cur ++ [a]) (curW + fwI a)
          (by rw [sumFW_append_single, hW]) (Or.inr ?_) row hrow
        rw [sumFW_append_single, ← hW]
        exact hfit
      · push_neg at hnil
        subst hnil
        exact buildRowsAux_rowOK R rest ([] ++ [a]) (curW + fwI a)
          (by simp [sumFW, hW]) (Or.inl (by simp)) row hrow

theorem buildRows_rowOK (R : ℚ) (l : List Item) :
    ∀ row ∈ buildRows R l, RowOK R row :=
  buildRowsAux_rowOK R l [] 0 (by simp [sumFW]) (Or.inl (by simp))

theorem buildRows_mem (R : ℚ) {l row : List Item} {it : Item}
    (hrow : row ∈ buildRows R l) (hit : it ∈ row) : it ∈ l := by
  rw [← buildRows_join R l]
  exact List.mem_join.mpr ⟨row, hrow, hit⟩

theorem placeRowAux_shape (mh cy g : ℚ) :
    ∀ (x : ℚ) (row : List Item) (p : Placed),
      p ∈ placeRowAux mh cy g x row →
      ∃ it ∈ row, p.w = it.w ∧ p.h = it.h ∧ p.y = cy + (mh - it.h) / 2
  | _, [], p, hp => absurd hp (List.not_mem_nil p)
  | x, it :: rest, p, hp => by
    rcases List.mem_cons.mp hp with rfl | hp'
    · exact ⟨it, List.mem_cons_self it rest, rfl, rfl, rfl⟩
    · obtain ⟨it', h1, h2⟩ :=
        placeRowAux_shape mh cy g (x + it.w + g) rest p hp'
      exact ⟨it', List.mem_cons_of_mem it h1, h2⟩

theorem placeRowAux_x_lb (mh cy g : ℚ) (hg : 0 ≤ g) :
    ∀ (x : ℚ) (row : List Item), (∀ it ∈ row, 0 ≤ it.w) →
      ∀ p ∈ placeRowAux mh cy g x row, x ≤ p.x
  | _, [], _, p, hp => absurd hp (List.not_mem_nil p)
  | x, it :: rest, hw, p, hp => by
    rcases List.mem_cons.mp hp with rfl | hp'
    · exact le_refl x
    · have h0 := hw it (List.mem_cons_self it rest)
      have := placeRowAux_x_lb mh cy g hg (x + it.w + g) rest
        (fun i hi => hw i (List.mem_cons_of_mem it hi)) p hp'
      linarith

theorem placeRowAux_x_ub (mh cy g : ℚ) (hg : 0 ≤ g) :
    ∀ (x : ℚ) (row : List Item), (∀ it ∈ row, 0 ≤ it.w) →
      ∀ p ∈ placeRowAux mh cy g x row,
        p.x + p.w ≤ x + sumW row + g * ((row.length : ℚ) - 1)
  | _, [], _, p, hp => absurd hp (List.not_mem_nil p)
  | x, it :: rest, hw, p, hp => by
    rcases List.mem_cons.mp hp with rfl | hp'
    · have h1 : 0 ≤ sumW rest :=
        sumW_nonneg (fun i hi => hw i (List.mem_cons_of_mem it hi))
      have h2 : (0 : ℚ) ≤ (rest.length : ℚ) := by positivity
      simp only [sumW, List.length_cons]
      push_cast
      nlinarith
    · have := placeRowAux_x_ub mh cy g hg (x + it.w + g) rest
        (fun i hi => hw i (List.mem_cons_of_mem it hi)) p hp'
      simp only [sumW, List.length_cons]
      push_cast
      push_cast at this
      linarith

theorem placeRowAux_sep (mh cy g : ℚ) (hg : 0 ≤ g) :
    ∀ (x : ℚ) (row : List Item), (∀ it ∈ row, 0 ≤ it.w) →
      List.Pairwise (fun p q : Placed => p.x + p.w + g ≤ q.x)
        (placeRowAux mh cy g x row)
  | _, [], _ => List.Pairwise.nil
  | x, it :: rest, hw => by
    simp only [placeRowAux]
    refine List.Pairwise.cons ?_ ?_
    · intro q hq
      have := placeRowAux_x_lb mh cy g hg (x + it.w + g) rest
        (fun i hi => hw i (List.mem_cons_of_mem it hi)) q hq
      simpa using this
    · exact placeRowAux_sep mh cy g hg (x + it.w + g) rest
        (fun i hi => hw i (List.mem_cons_of_mem it hi))

theorem placeRowAux_y_bounds (mh cy g : ℚ) :
    ∀ (x : ℚ) (row : List Item), (∀ it ∈ row, it.h ≤ mh) →
      ∀ p ∈ placeRowAux mh cy g x row, cy ≤ p.y ∧ p.y + p.h ≤ cy + mh := by
  intro x row hmh p hp
  obtain ⟨it, hit, hw, hh, hy⟩ := placeRowAux_shape mh cy g x row p hp
  have := hmh it hit
  constructor
  · rw [hy]; linarith
  · rw [hy, hh]; linarith

theorem margin_pos : (0 : ℚ) < MARGIN_IN := by norm_num [MARGIN_IN]

/-- On a row with more than one item that fits the roll, the distributed
gap is at least two margins. -/
theorem placeRow_gap (R : ℚ) (row : List Item) (hlen : 1 < row.length)
    (hfit : sumFW row ≤ R) :
    2 * MARGIN_IN ≤
      (R - MARGIN_IN * 2 - sumW row) / ((row.length : ℚ) - 1) := by
  have hn : (0 : ℚ) < (row.length : ℚ) - 1 := by
    have : (1 : ℚ) < (row.length : ℚ) := by exact_mod_cast hlen
    linarith
  rw [le_div_iff₀ hn]
  have := sumFW_eq_sumW row
  nlinarith [this, hfit]

/-- Per-row placement bounds: every placed entry of one row stays inside
`[0, R]` horizontally and within the row band vertically. -/
theorem placeRow_bounds (R : ℚ) (row : List Item) (cy : ℚ)
    (hOK : RowOK R row)
    (hitems : ∀ it ∈ row, 0 ≤ it.w ∧ 0 ≤ it.h ∧ it.w ≤ R) :
    ∀ p ∈ (placeRow R row cy).1,
      0 ≤ p.x ∧ p.x + p.w ≤ R ∧ cy ≤ p.y ∧ p.y + p.h ≤ cy + rowMaxH row := by
  intro p hp
  have hmh : ∀ it ∈ row, it.h ≤ rowMaxH row := fun it hit => rowMaxH_mem hit
  have hws : ∀ it ∈ row, 0 ≤ it.w := fun it hit => (hitems it hit).1
  simp only [placeRow] at hp
  by_cases hlen : 1 < row.length
  · rw [if_pos hlen] at hp
    have hfit : sumFW row ≤ R := by
      rcases hOK with h1 | h2
      · omega
      · exact h2
    have hgap := placeRow_gap R row hlen hfit
    have hg0 : (0 : ℚ) ≤ (R - MARGIN_IN * 2 - sumW row) / ((row.length : ℚ) - 1) := by
      have := margin_pos
      linarith
    have hy := placeRowAux_y_bounds _ cy _ _ row hmh p hp
    have hx1 := placeRowAux_x_lb _ cy _ hg0 _ row hws p hp
    have hx2 := placeRowAux_x_ub _ cy _ hg0 _ row hws p hp
    have hn : ((row.length : ℚ) - 1) ≠ 0 := by
      have : (1 : ℚ) < (row.length : ℚ) := by exact_mod_cast hlen
      linarith
    rw [div_mul_cancel₀ _ hn] at hx2
    have := margin_pos
    exact ⟨by linarith, by linarith, hy.1, hy.2⟩
  · rw [if_neg hlen] at hp
    push_neg at hlen
    cases row with
    | nil => exact absurd hp (List.not_mem_nil p)
    | cons it rest =>
      have hrest : rest = [] := by
        cases rest with
        | nil => rfl
        | cons b l => simp at hlen
      subst hrest
      have hit := hitems it (List.mem_singleton_self it)
      simp only [placeRowAux, List.mem_singleton, List.not_mem_nil,
        or_false] at hp
      subst hp
      have hmh1 : rowMaxH [it] = it.h := rfl
      have hs : sumW [it] = it.w := by simp [sumW]
      refine ⟨?_, ?_, ?_, ?_⟩
      · show 0 ≤ MARGIN_IN + (R - MARGIN_IN * 2 - sumW [it]) / 2
        rw [hs]
        linarith [hit.1, hit.2.2]
      · show MARGIN_IN + (R - MARGIN_IN * 2 - sumW [it]) / 2 + it.w ≤ R
        rw [hs]
        linarith [hit.1, hit.2.2]
      · show cy ≤ cy + (rowMaxH [it] - it.h) / 2
        rw [hmh1]
        linarith
      · show cy + (rowMaxH [it] - it.h) / 2 + it.h ≤ cy + rowMaxH [it]
        rw [hmh1]
        linarith

theorem placeRow_fst (R : ℚ) (row : List Item) (cy : ℚ) :
    ∃ g x0, (placeRow R row cy).1 = placeRowAux (rowMaxH row) cy g x0 row :=
  ⟨_, _, rfl⟩

theorem placeRow_snd (R : ℚ) (row : List Item) (cy : ℚ) :
    (placeRow R row cy).2 = cy + rowMaxH row + MARGIN_IN := rfl

/-- Within one row, consecutive placed entries are separated by at least a
full margin. -/
theorem placeRow_sep (R : ℚ) (row : List Item) (cy : ℚ)
    (hOK : RowOK R row) (hws : ∀ it ∈ row, 0 ≤ it.w) :
    List.Pairwise (fun p q : Placed => p.x + p.w + MARGIN_IN ≤ q.x)
      (placeRow R row cy).1 := by
  simp only [placeRow]
  by_cases hlen : 1 < row.length
  · rw [if_pos hlen]
    have hfit : sumFW row ≤ R := by
      rcases hOK with h1 | h2
      · omega
      · exact h2
    have hgap := placeRow_gap R row hlen hfit
    have hg0 : (0 : ℚ) ≤ (R - MARGIN_IN * 2 - sumW row) / ((row.length : ℚ) - 1) := by
      have := margin_pos
      linarith
    have := placeRowAux_sep (rowMaxH row) cy _ hg0 MARGIN_IN row hws
    refine this.imp ?_
    intro p q h
    have := margin_pos
    linarith
  · rw [if_neg hlen]
    push_neg at hlen
    cases row with
    | nil => exact List.Pairwise.nil
    | cons it rest =>
      have hrest : rest = [] := by
        cases rest with
        | nil => rfl
        | cons b l => simp at hlen
      subst hrest
      simp [placeRowAux]

/-! ### Total length and vertical separation of rows -/

/-- The total row heights plus inter-row margins, as accumulated in
`curr_y += row_max_h + MARGIN_IN`. -/
def rowsLen : List (List Item) → ℚ
  | [] => 0
  | r :: rs => (rowMaxH r + MARGIN_IN) + rowsLen rs

theorem placeRows_snd (R : ℚ) :
    ∀ (rows : List (List Item)) (y : ℚ),
      (placeRows R rows y).2 = y + rowsLen rows
  | [], y => by simp [placeRows, rowsLen]
  | row :: rs, y => by
    simp only [placeRows, rowsLen, placeRows_snd R rs, placeRow_snd]
    ring

theorem rowsLen_nonneg :
    ∀ {rows : List (List Item)},
      (∀ row ∈ rows, ∀ it ∈ row, 0 ≤ it.h) → 0 ≤ rowsLen rows
  | [], _ => le_refl 0
  | row :: rs, h => by
    have h1 : 0 ≤ rowMaxH row :=
      rowMaxH_nonneg (h row (List.mem_cons_self row rs))
    have h2 : 0 ≤ rowsLen rs :=
      rowsLen_nonneg (fun r hr => h r (List.mem_cons_of_mem row hr))
    have := margin_pos
    simp only [rowsLen]
    linarith

theorem placeRows_y_lb (R : ℚ) :
    ∀ (rows : List (List Item)) (y : ℚ),
      (∀ row ∈ rows, ∀ it ∈ row, 0 ≤ it.h) →
      ∀ p ∈ (placeRows R rows y).1, y ≤ p.y
  | [], _, _, p, hp => absurd hp (List.not_mem_nil p)
  | row :: rs, y, hh, p, hp => by
    simp only [placeRows, List.mem_append] at hp
    rcases hp with hp | hp
    · obtain ⟨g, x0, heq⟩ := placeRow_fst R row y
      rw [heq] at hp
      exact (placeRowAux_y_bounds _ y g x0 row
        (fun it hit => rowMaxH_mem hit) p hp).1
    · have h1 := placeRows_y_lb R rs (placeRow R row y).2
        (fun r hr => hh r (List.mem_cons_of_mem row hr)) p hp
      have h2 : 0 ≤ rowMaxH row :=
        rowMaxH_nonneg (hh row (List.mem_cons_self row rs))
      rw [placeRow_snd] at h1
      have := margin_pos
      linarith

theorem placeRows_y_ub (R : ℚ) :
    ∀ (rows : List (List Item)) (y : ℚ),
      (∀ row ∈ rows, ∀ it ∈ row, 0 ≤ it.h) →
      ∀ p ∈ (placeRows R rows y).1, p.y + p.h ≤ (placeRows R rows y).2
  | [], _, _, p, hp => absurd hp (List.not_mem_nil p)
  | row :: rs, y, hh, p, hp => by
    have hsnd : (placeRows R (row :: rs) y).2 =
        (placeRows R rs (placeRow R row y).2).2 := rfl
    simp only [placeRows, List.mem_append] at hp
    rcases hp with hp | hp
    · obtain ⟨g, x0, heq⟩ := placeRow_fst R row y
      rw [heq] at hp
      have h1 := (placeRowAux_y_bounds _ y g x0 row
        (fun it hit => rowMaxH_mem hit) p hp).2
      have h2 : 0 ≤ rowsLen rs :=
        rowsLen_nonneg (fun r hr => hh r (List.mem_cons_of_mem row hr))
      rw [hsnd, placeRows_snd, placeRow_snd]
      have := margin_pos
      linarith
    · have h1 := placeRows_y_ub R rs (placeRow R row y).2
        (fun r hr => hh r (List.mem_cons_of_mem row hr)) p hp
      rw [hsnd]
      exact h1

/-- The claim's notion of non-intersection of margin-inclusive boxes: the
two rectangles `[x - m, x + w + m] × [y - m, y + h + m]` are separated
along one of the axes. -/
def marginDisjoint (m : ℚ) (p q : Placed) : Prop :=
  p.x + p.w + m ≤ q.x - m ∨ q.x + q.w + m ≤ p.x - m ∨
    p.y + p.h + m ≤ q.y - m ∨ q.y + q.h + m ≤ p.y - m

theorem placeRows_pairwise (R : ℚ) :
    ∀ (rows : List (List Item)) (y : ℚ),
      (∀ row ∈ rows, RowOK R row) →
      (∀ row ∈ rows, ∀ it ∈ row, 0 ≤ it.w ∧ 0 ≤ it.h) →
      List.Pairwise (marginDisjoint (MARGIN_IN / 2)) (placeRows R rows y).1
  | [], _, _, _ => List.Pairwise.nil
  | row :: rs, y, hOK, hitems => by
    simp only [placeRows]
    rw [List.pairwise_append]
    refine ⟨?_, ?_, ?_⟩
    · have := placeRow_sep R row y (hOK row (List.mem_cons_self row rs))
        (fun it hit => (hitems row (List.mem_cons_self row rs) it hit).1)
      refine this.imp ?_
      intro p q h
      left
      linarith
    · exact placeRows_pairwise R rs (placeRow R row y).2
        (fun r hr => hOK r (List.mem_cons_of_mem row hr))
        (fun r hr => hitems r (List.mem_cons_of_mem row hr))
    · intro p hp q hq
      obtain ⟨g, x0, heq⟩ := placeRow_fst R row y
      rw [heq] at hp
      have hup := (placeRowAux_y_bounds _ y g x0 row
        (fun it hit => rowMaxH_mem hit) p hp).2
      have hlo := placeRows_y_lb R rs (placeRow R row y).2
        (fun r hr it hit => (hitems r (List.mem_cons_of_mem row hr) it hit).2)
        q hq
      rw [placeRow_snd] at hlo
      right; right; left
      linarith

/-- Every item handed to the row grouping step comes from orienting some
artwork, so positivity of the artwork dimensions transfers. -/
theorem sorted_items_pos (artworks : List Artwork) (R : ℚ)
    (hpos : ∀ a ∈ artworks, 0 < a.print_w ∧ 0 < a.print_h) :
    ∀ it ∈ sortItems (artworks.map (orient R)), 0 < it.w ∧ 0 < it.h := by
  intro it hit
  have hmem : it ∈ artworks.map (orient R) :=
    (sortItems_perm _).mem_iff.mp hit
  obtain ⟨a, ha, rfl⟩ := List.mem_map.mp hmem
  rcases orient_dims R a with ⟨hw, hh⟩ | ⟨hw, hh⟩
  · rw [hw, hh]
    exact ⟨(hpos a ha).1, (hpos a ha).2⟩
  · rw [hw, hh]
    exact ⟨(hpos a ha).2, (hpos a ha).1⟩

/-- Counterexample to C1 as stated: three 10×10 artworks produce two rows
separated by a single margin, so the FULL margin-inclusive boxes of the
first artwork (row 1) and the third artwork (row 2) intersect with
positive area. -/
theorem no_overlap_counterexample :
    (optimize_layout_distributed
        [⟨"a", 10, 10⟩, ⟨"b", 10, 10⟩, ⟨"c", 10, 10⟩] ROLL_WIDTH_IN).1 =
      [⟨"a", 10, 10, 3/8, 3/8⟩, ⟨"b", 10, 10, 93/8, 3/8⟩,
        ⟨"c", 10, 10, 6, 43/4⟩] ∧
      ¬ marginDisjoint MARGIN_IN ⟨"a", 10, 10, 3/8, 3/8⟩
        ⟨"c", 10, 10, 6, 43/4⟩ := by
  constructor
  · norm_num [optimize_layout_distributed, sortItems, buildRows, buildRowsAux,
      placeRows, placeRow, placeRowAux, rowMaxH, sumW, fwI, orient,
      List.insertionSort, List.orderedInsert, MARGIN_IN, ROLL_WIDTH_IN]
  · unfold marginDisjoint
    push_neg
    norm_num [MARGIN_IN]

/-- C1 (amended): the boxes obtained by expanding every placed artwork by
HALF a margin on each side never intersect (rows are separated by one
margin, and items within a row by at least two margins). -/
theorem no_overlap_half_margin (artworks : List Artwork) (R : ℚ)
    (hpos : ∀ a ∈ artworks, 0 < a.print_w ∧ 0 < a.print_h) :
    List.Pairwise (marginDisjoint (MARGIN_IN / 2))
      (optimize_layout_distributed artworks R).1 := by
  simp only [optimize_layout_distributed]
  apply placeRows_pairwise
  · exact buildRows_rowOK R _
  · intro row hrow it hit
    have h := sorted_items_pos artworks R hpos it (buildRows_mem R hrow hit)
    exact ⟨le_of_lt h.1, le_of_lt h.2⟩

/-- Witness for C1 (amended) on the three-artwork inventory of the
counterexample. -/
theorem no_overlap_half_margin_witness :
    List.Pairwise (marginDisjoint (MARGIN_IN / 2))
      (optimize_layout_distributed
        [⟨"a", 10, 10⟩, ⟨"b", 10, 10⟩, ⟨"c", 10, 10⟩] ROLL_WIDTH_IN).1 :=
  no_overlap_half_margin [⟨"a", 10, 10⟩, ⟨"b", 10, 10⟩, ⟨"c", 10, 10⟩]
    ROLL_WIDTH_IN (by
      intro a ha
      rcases List.mem_cons.mp ha with rfl | ha
      · norm_num
      rcases List.mem_cons.mp ha with rfl | ha
      · norm_num
      rcases List.mem_cons.mp ha with rfl | ha
      · norm_num
      · exact absurd ha (List.not_mem_nil a))

/-- Horizontal bounds of every placed entry. -/
theorem placeRows_x (R : ℚ) :
    ∀ (rows : List (List Item)) (y : ℚ),
      (∀ row ∈ rows, RowOK R row) →
      (∀ row ∈ rows, ∀ it ∈ row, 0 ≤ it.w ∧ 0 ≤ it.h ∧ it.w ≤ R) →
      ∀ p ∈ (placeRows R rows y).1, 0 ≤ p.x ∧ p.x + p.w ≤ R
  | [], _, _, _, p, hp => absurd hp (List.not_mem_nil p)
  | row :: rs, y, hOK, hitems, p, hp => by
    simp only [placeRows, List.mem_append] at hp
    rcases hp with hp | hp
    · have := placeRow_bounds R row y (hOK row (List.mem_cons_self row rs))
        (hitems row (List.mem_cons_self row rs)) p hp
      exact ⟨this.1, this.2.1⟩
    · exact placeRows_x R rs (placeRow R row y).2
        (fun r hr => hOK r (List.mem_cons_of_mem row hr))
        (fun r hr => hitems r (List.mem_cons_of_mem row hr)) p hp

/-- C6: when every artwork is positive-dimensioned and its effective width
fits the roll, every placed bounding box lies within
`[0, R] × [0, totalLength]`. -/
theorem packer_bounds (artworks : List Artwork) (R : ℚ)
    (hpos : ∀ a ∈ artworks,
      0 < a.print_w ∧ 0 < a.print_h ∧ (orient R a).w ≤ R) :
    ∀ p ∈ (optimize_layout_distributed artworks R).1,
      0 ≤ p.x ∧ p.x + p.w ≤ R ∧ 0 ≤ p.y ∧
        p.y + p.h ≤ (optimize_layout_distributed artworks R).2 := by
  have hitems : ∀ row ∈ buildRows R (sortItems (artworks.map (orient R))),
      ∀ it ∈ row, 0 ≤ it.w ∧ 0 ≤ it.h ∧ it.w ≤ R := by
    intro row hrow it hit
    have hmem := buildRows_mem R hrow hit
    have h := sorted_items_pos artworks R
      (fun a ha => ⟨(hpos a ha).1, (hpos a ha).2.1⟩) it hmem
    have hmem' : it ∈ artworks.map (orient R) :=
      (sortItems_perm _).mem_iff.mp hmem
    obtain ⟨a, ha, rfl⟩ := List.mem_map.mp hmem'
    exact ⟨le_of_lt h.1, le_of_lt h.2, (hpos a ha).2.2⟩
  intro p hp
  simp only [optimize_layout_distributed] at hp ⊢
  have hx := placeRows_x R _ MARGIN_IN (buildRows_rowOK R _) hitems p hp
  have hylb := placeRows_y_lb R _ MARGIN_IN
    (fun row hrow it hit => (hitems row hrow it hit).2.1) p hp
  have hyub := placeRows_y_ub R _ MARGIN_IN
    (fun row hrow it hit => (hitems row hrow it hit).2.1) p hp
  have := margin_pos
  exact ⟨hx.1, hx.2, by linarith, hyub⟩

/-- Witness for C6: the single placed entry of a one-artwork inventory is
in bounds. -/
theorem packer_bounds_witness :
    0 ≤ (Placed.mk "a" 10 10 6 (3/8)).x ∧
      (Placed.mk "a" 10 10 6 (3/8)).x + (Placed.mk "a" 10 10 6 (3/8)).w ≤ 22 ∧
      0 ≤ (Placed.mk "a" 10 10 6 (3/8)).y ∧
      (Placed.mk "a" 10 10 6 (3/8)).y + (Placed.mk "a" 10 10 6 (3/8)).h ≤
        (optimize_layout_distributed [⟨"a", 10, 10⟩] 22).2 := by
  have hlist : (optimize_layout_distributed [⟨"a", 10, 10⟩] 22).1 =
      [⟨"a", 10, 10, 6, 3/8⟩] := by
    norm_num [optimize_layout_distributed, sortItems, buildRows, buildRowsAux,
      placeRows, placeRow, placeRowAux, rowMaxH, sumW, fwI, orient,
      List.insertionSort, List.orderedInsert, MARGIN_IN]
  exact packer_bounds [⟨"a", 10, 10⟩] 22
    (by
      intro a ha
      rcases List.mem_singleton.mp ha with rfl
      refine ⟨by norm_num, by norm_num, ?_⟩
      norm_num [orient, MARGIN_IN])
    ⟨"a", 10, 10, 6, 3/8⟩ (hlist ▸ List.mem_singleton_self _)

/-! ### Stable insertion of an appended element into the sorted order -/

theorem sortItems_sorted (l : List Item) :
    List.Sorted keyGE (sortItems l) :=
  List.sorted_insertionSort keyGE l

/-- When `d.h ≤ a.h`, inserting `a` commutes with a `d`-split whose left
part dominates `d` and whose right part is strictly below `d`. -/
theorem orderedInsert_append_left (a d : Item) (had : keyGE a d) :
    ∀ (l1 l2 : List Item), (∀ x ∈ l2, x.h < d.h) →
      List.orderedInsert keyGE a (l1 ++ l2) =
        List.orderedInsert keyGE a l1 ++ l2 ∧
      List.orderedInsert keyGE a (l1 ++ d :: l2) =
        List.orderedInsert keyGE a l1 ++ d :: l2
  | [], l2, h2 => by
    constructor
    · cases l2 with
      | nil => rfl
      | cons b l =>
        have hb : keyGE a b := by
          have := h2 b (List.mem_cons_self b l)
          have := had
          unfold keyGE at *
          linarith
        simp [List.orderedInsert, hb]
    · simp [List.orderedInsert, had]
  | b :: u, l2, h2 => by
    by_cases hab : keyGE a b
    · constructor <;> simp [List.orderedInsert, hab]
    · have ih := orderedInsert_append_left a d had u l2 h2
      constructor <;> simp [List.orderedInsert, hab, ih.1, ih.2]

/-- When `a.h < d.h`, inserting `a` walks past the `d`-dominated prefix and
past `d` itself. -/
theorem orderedInsert_append_right (a d : Item) (had : ¬keyGE a d) :
    ∀ (l1 l2 : List Item), (∀ x ∈ l1, d.h ≤ x.h) →
      List.orderedInsert keyGE a (l1 ++ l2) =
        l1 ++ List.orderedInsert keyGE a l2 ∧
      List.orderedInsert keyGE a (l1 ++ d :: l2) =
        l1 ++ d :: List.orderedInsert keyGE a l2
  | [], l2, _ => by
    constructor
    · rfl
    · simp [List.orderedInsert, had]
  | b :: u, l2, h1 => by
    have hab : ¬keyGE a b := by
      have hdb := h1 b (List.mem_cons_self b u)
      unfold keyGE at *
      push_neg at had ⊢
      linarith
    have ih := orderedInsert_append_right a d had u l2
      (fun x hx => h1 x (List.mem_cons_of_mem b hx))
    constructor <;> simp [List.orderedInsert, hab, ih.1, ih.2]

/-- Appending `d` to the input inserts `d` at its stable position in the
sorted output: the sorted list splits as `l1 ++ l2` (items of height at
least `d.h`, then items strictly below) and sorting the appended input
yields `l1 ++ d :: l2`. -/
theorem sortItems_append_single (d : Item) :
    ∀ (l : List Item), ∃ l1 l2,
      sortItems l = l1 ++ l2 ∧ sortItems (l ++ [d]) = l1 ++ d :: l2 ∧
      (∀ x ∈ l1, d.h ≤ x.h) ∧ (∀ x ∈ l2, x.h < d.h)
  | [] => ⟨[], [], rfl, rfl, by simp, by simp⟩
  | a :: l => by
    obtain ⟨l1, l2, h1, h2, hl1, hl2⟩ := sortItems_append_single d l
    by_cases had : keyGE a d
    · obtain ⟨e1, e2⟩ := orderedInsert_append_left a d had l1 l2 hl2
      refine ⟨List.orderedInsert keyGE a l1, l2, ?_, ?_, ?_, hl2⟩
      · show List.orderedInsert keyGE a (sortItems l) = _
        rw [h1, e1]
      · show List.orderedInsert keyGE a (sortItems (l ++ [d])) = _
        rw [h2, e2]
      · intro x hx
        rcases (List.mem_orderedInsert keyGE).mp hx with rfl | hx
        · exact had
        · exact hl1 x hx
    · obtain ⟨e1, e2⟩ := orderedInsert_append_right a d had l1 l2 hl1
      refine ⟨l1, List.orderedInsert keyGE a l2, ?_, ?_, hl1, ?_⟩
      · show List.orderedInsert keyGE a (sortItems l) = _
        rw [h1, e1]
      · show List.orderedInsert keyGE a (sortItems (l ++ [d])) = _
        rw [h2, e2]
      · intro x hx
        rcases (List.mem_orderedInsert keyGE).mp hx with rfl | hx
        · unfold keyGE at had
          push_neg at had
          exact had
        · exact hl2 x hx

/-! ### A fresh-row formulation of the greedy grouping -/

/-- Split off one greedy row from `l`, starting from accumulated width
`acc`: the same break test `current_row_w + item > roll_width` as the
grouping loop.  Returns the row and the remainder. -/
def rowSplit (R acc : ℚ) : List Item → List Item × List Item
  | [] => ([], [])
  | b :: rest =>
    if R < acc + fwI b then ([], b :: rest)
    else
      let p := rowSplit R (acc + fwI b) rest
      (b :: p.1, p.2)

theorem rowSplit_snd_length (R : ℚ) :
    ∀ (l : List Item) (acc : ℚ), (rowSplit R acc l).2.length ≤ l.length
  | [], _ => le_refl 0
  | b :: rest, acc => by
    unfold rowSplit
    by_cases h : R < acc + fwI b
    · rw [if_pos h]
    · rw [if_neg h]
      have := rowSplit_snd_length R rest (acc + fwI b)
      simp only [List.length_cons]
      omega

theorem rowSplit_suffix (R : ℚ) :
    ∀ (l : List Item) (acc : ℚ), (rowSplit R acc l).2 <:+ l
  | [], _ => List.nil_suffix
  | b :: rest, acc => by
    unfold rowSplit
    by_cases h : R < acc + fwI b
    · rw [if_pos h]
    · rw [if_neg h]
      exact (rowSplit_suffix R rest (acc + fwI b)).trans
        (List.suffix_cons b rest)

theorem rowSplit_mono (R : ℚ) :
    ∀ (l : List Item) {acc acc' : ℚ}, acc ≤ acc' →
      (rowSplit R acc l).2 <:+ (rowSplit R acc' l).2
  | [], _, _, _ => List.nil_suffix
  | b :: rest, acc, acc', hle' => by
    unfold rowSplit
    by_cases h' : R < acc' + fwI b
    · rw [if_pos h']
      by_cases h : R < acc + fwI b
      · rw [if_pos h]
      · rw [if_neg h]
        exact (rowSplit_suffix R rest (acc + fwI b)).trans
          (List.suffix_cons b rest)
    · rw [if_neg h']
      have h : ¬R < acc + fwI b := by
        push_neg at h' ⊢
        linarith
      rw [if_neg h]
      exact rowSplit_mono R rest (by linarith)

/-- Total content height of the greedy fresh-row packing of `l`
(row leader height plus margin, per row).  For a descending `l` this equals
`rowsLen (buildRows R l)`. -/
def T (R : ℚ) : List Item → ℚ
  | [] => 0
  | a :: rest => a.h + MARGIN_IN + T R (rowSplit R (fwI a) rest).2
termination_by l => l.length
decreasing_by
  simp only [List.length_cons]
  exact Nat.lt_succ_of_le (rowSplit_snd_length _ _ _)

theorem T_nil (R : ℚ) : T R [] = 0 := by simp [T]

theorem T_cons (R : ℚ) (a : Item) (rest : List Item) :
    T R (a :: rest) = a.h + MARGIN_IN + T R (rowSplit R (fwI a) rest).2 := by
  simp [T]

theorem rowMaxH_ub : ∀ {row : List Item} {m : ℚ}, row ≠ [] →
    (∀ x ∈ row, x.h ≤ m) → rowMaxH row ≤ m
  | [], _, h, _ => absurd rfl h
  | [a], _, _, hall => hall a (List.mem_singleton_self a)
  | a :: b :: l, m, _, hall => by
    simp only [rowMaxH]
    exact max_le (hall a (List.mem_cons_self a _))
      (rowMaxH_ub (List.cons_ne_nil b l)
        (fun x hx => hall x (List.mem_cons_of_mem a hx)))

theorem rowMaxH_head (c : Item) (cs : List Item)
    (h : ∀ x ∈ c :: cs, x.h ≤ c.h) : rowMaxH (c :: cs) = c.h := by
  cases cs with
  | nil => rfl
  | cons b l =>
    simp only [rowMaxH]
    exact max_eq_left (rowMaxH_ub (List.cons_ne_nil b l)
      (fun x hx => h x (List.mem_cons_of_mem c hx)))

/-- On a descending tail, the grouping loop with a non-empty current row
led by its tallest element `c` contributes `c.h + MARGIN_IN` for the
current row and then packs fresh rows greedily: exactly `T` over the
remainder of the row split. -/
theorem buildRowsAux_rowsLen (R : ℚ) :
    ∀ (rest : List Item) (c : Item) (cs : List Item),
      (∀ x ∈ c :: cs, x.h ≤ c.h) →
      (∀ x ∈ rest, x.h ≤ c.h) →
      List.Sorted keyGE rest →
      rowsLen (buildRowsAux R (c :: cs) (sumFW (c :: cs)) rest) =
        c.h + MARGIN_IN + T R (rowSplit R (sumFW (c :: cs)) rest).2
  | [], c, cs, hcur, _, _ => by
    unfold buildRowsAux
    rw [if_neg (by simp : ¬(c :: cs = []))]
    simp only [rowsLen, rowSplit, T_nil]
    rw [rowMaxH_head c cs hcur]
  | b :: rest', c, cs, hcur, hrest, hsor => by
    unfold buildRowsAux
    by_cases hbr : R < sumFW (c :: cs) + fwI b
    · rw [if_pos ⟨hbr, by simp⟩]
      have hb : sumFW [b] = fwI b := by simp [sumFW]
      have ih := buildRowsAux_rowsLen R rest' b []
        (by
          intro x hx
          rcases List.mem_singleton.mp hx with rfl
          exact le_refl _)
        (fun x hx => List.rel_of_sorted_cons hsor x hx)
        hsor.of_cons
      rw [hb] at ih
      simp only [rowsLen]
      rw [rowMaxH_head c cs hcur, ih]
      have hsplit : (rowSplit R (sumFW (c :: cs)) (b :: rest')).2 =
          b :: rest' := by
        unfold rowSplit
        rw [if_pos hbr]
      rw [hsplit, T_cons]
    · rw [if_neg (fun hand => hbr hand.1)]
      have hcur' : ∀ x ∈ c :: (cs ++ [b]), x.h ≤ c.h := by
        intro x hx
        rcases List.mem_cons.mp hx with rfl | hx
        · exact le_refl _
        rcases List.mem_append.mp hx with hx | hx
        · exact hcur x (List.mem_cons_of_mem c hx)
        · rcases List.mem_singleton.mp hx with rfl
          exact hrest x (List.mem_cons_self x rest')
      have ih := buildRowsAux_rowsLen R rest' c (cs ++ [b]) hcur'
        (fun x hx => hrest x (List.mem_cons_of_mem b hx))
        hsor.of_cons
      have hsum : sumFW (c :: (cs ++ [b])) = sumFW (c :: cs) + fwI b := by
        rw [show c :: (cs ++ [b]) = (c :: cs) ++ [b] by simp,
          sumFW_append_single]
      rw [hsum] at ih
      have hcons : (c :: cs) ++ [b] = c :: (cs ++ [b]) := by simp
      rw [hcons, ih]
      have hsplit : (rowSplit R (sumFW (c :: cs)) (b :: rest')).2 =
          (rowSplit R (sumFW (c :: cs) + fwI b) rest').2 := by
        simp only [rowSplit]
        rw [if_neg hbr]
      rw [hsplit]

theorem rowsLen_buildRows_eq_T (R : ℚ) (l : List Item)
    (hs : List.Sorted keyGE l) : rowsLen (buildRows R l) = T R l := by
  cases l with
  | nil => simp [buildRows, buildRowsAux, rowsLen, T_nil]
  | cons a rest =>
    unfold buildRows buildRowsAux
    rw [if_neg (fun hand => hand.2 rfl)]
    have h0 : (0 : ℚ) + fwI a = sumFW [a] := by simp [sumFW]
    simp only [List.nil_append]
    rw [h0]
    have ih := buildRowsAux_rowsLen R rest a [] (by
        intro x hx
        rcases List.mem_singleton.mp hx with rfl
        exact le_refl _)
      (fun x hx => List.rel_of_sorted_cons hs x hx) hs.of_cons
    rw [ih, T_cons]
    have : sumFW [a] = fwI a := by simp [sumFW]
    rw [this]

/-- The content length returned by the packer is the margin plus the
fresh-row greedy total of the sorted items. -/
theorem optimize_snd_eq (artworks : List Artwork) (R : ℚ) :
    (optimize_layout_distributed artworks R).2 =
      MARGIN_IN + T R (sortItems (artworks.map (orient R))) := by
  simp only [optimize_layout_distributed]
  rw [placeRows_snd, rowsLen_buildRows_eq_T _ _ (sortItems_sorted _)]

/-! ### Monotonicity of the greedy total under insertion -/

theorem T_nonneg (R : ℚ) :
    ∀ (l : List Item), (∀ x ∈ l, 0 ≤ x.h) → 0 ≤ T R l
  | [], _ => by simp [T_nil]
  | a :: rest, h => by
    rw [T_cons]
    have hsuf := rowSplit_suffix R rest (fwI a)
    have hrec := T_nonneg R (rowSplit R (fwI a) rest).2
      (fun x hx => h x (List.mem_cons_of_mem a (hsuf.subset hx)))
    have ha := h a (List.mem_cons_self a rest)
    have := margin_pos
    linarith
termination_by l => l.length
decreasing_by
  simp only [List.length_cons]
  exact Nat.lt_succ_of_le (rowSplit_snd_length _ _ _)

/-- `T` is monotone along suffixes of a descending, nonnegatively sized
list: dropping leading items never increases the packed height. -/
theorem T_suffix_le (R : ℚ) :
    ∀ (n : ℕ) (l : List Item), l.length ≤ n →
      List.Sorted keyGE l → (∀ x ∈ l, 0 ≤ x.h ∧ 0 ≤ x.w) →
      ∀ s, s <:+ l → T R s ≤ T R l := by
  intro n
  induction n with
  | zero =>
    intro l hlen _ _ s hs
    have : l = [] := List.length_eq_zero.mp (Nat.le_zero.mp hlen)
    subst this
    obtain rfl := List.suffix_nil.mp hs
    exact le_refl _
  | succ n ih =>
    intro l hlen hsor hdims s hs
    cases l with
    | nil =>
      obtain rfl := List.suffix_nil.mp hs
      exact le_refl _
    | cons a rest =>
      rcases List.suffix_cons_iff.mp hs with rfl | hs'
      · exact le_refl _
      have htail : T R s ≤ T R rest :=
        ih rest (by simpa [Nat.lt_succ_iff] using hlen) hsor.of_cons
          (fun x hx => hdims x (List.mem_cons_of_mem a hx)) s hs'
      have hstep : T R rest ≤ T R (a :: rest) := by
        cases rest with
        | nil =>
          rw [T_nil, T_cons]
          have h0 : (rowSplit R (fwI a) ([] : List Item)).2 = [] := rfl
          rw [h0, T_nil]
          have := (hdims a (List.mem_cons_self a [])).1
          have := margin_pos
          linarith
        | cons b r2 =>
          rw [T_cons R a (b :: r2)]
          by_cases hbrk : R < fwI a + fwI b
          · have hsp : (rowSplit R (fwI a) (b :: r2)).2 = b :: r2 := by
              simp only [rowSplit]
              rw [if_pos hbrk]
            rw [hsp]
            have := (hdims a (List.mem_cons_self a _)).1
            have := margin_pos
            linarith
          · have hsp : (rowSplit R (fwI a) (b :: r2)).2 =
                (rowSplit R (fwI a + fwI b) r2).2 := by
              simp only [rowSplit]
              rw [if_neg hbrk]
            rw [hsp, T_cons R b r2]
            have hfa : 0 ≤ fwI a := by
              have := (hdims a (List.mem_cons_self a _)).2
              have := margin_pos
              unfold fwI
              linarith
            have hmono : (rowSplit R (fwI b) r2).2 <:+
                (rowSplit R (fwI a + fwI b) r2).2 :=
              rowSplit_mono R r2 (by linarith)
            have hSa_suf : (rowSplit R (fwI a + fwI b) r2).2 <:+ r2 :=
              rowSplit_suffix R r2 _
            have hSa_len : (rowSplit R (fwI a + fwI b) r2).2.length ≤ n := by
              have h1 := rowSplit_snd_length R r2 (fwI a + fwI b)
              simp only [List.length_cons] at hlen
              omega
            have hSa_sor : List.Sorted keyGE (rowSplit R (fwI a + fwI b) r2).2 :=
              hsor.sublist (hSa_suf.sublist.trans
                ((List.suffix_cons b r2).sublist.trans
                  (List.suffix_cons a (b :: r2)).sublist))
            have hSa_dims : ∀ x ∈ (rowSplit R (fwI a + fwI b) r2).2,
                0 ≤ x.h ∧ 0 ≤ x.w := fun x hx =>
              hdims x (List.mem_cons_of_mem a (List.mem_cons_of_mem b
                (hSa_suf.subset hx)))
            have hT := ih (rowSplit R (fwI a + fwI b) r2).2 hSa_len hSa_sor
              hSa_dims _ hmono
            have hab : b.h ≤ a.h := List.rel_of_sorted_cons hsor b
              (List.mem_cons_self b r2)
            linarith
      linarith

/-- How splitting one greedy row off `l1 ++ d :: l2` relates to splitting
one off `l1 ++ l2`: the two remainders agree up to the inserted `d`, or
both have moved past `d`. -/
theorem rowSplit_insert (R : ℚ) (d : Item) (hd : 0 ≤ fwI d)
    (l2 : List Item) :
    ∀ (l1 : List Item) (acc : ℚ),
      (∃ s, s <:+ l1 ∧
        (rowSplit R acc (l1 ++ d :: l2)).2 = s ++ d :: l2 ∧
        (rowSplit R acc (l1 ++ l2)).2 = s ++ l2) ∨
      ((rowSplit R acc (l1 ++ d :: l2)).2 = d :: l2 ∧
        (rowSplit R acc (l1 ++ l2)).2 <:+ l2) ∨
      ((rowSplit R acc (l1 ++ l2)).2 <:+ (rowSplit R acc (l1 ++ d :: l2)).2 ∧
        (rowSplit R acc (l1 ++ d :: l2)).2 <:+ l2)
  | [], acc => by
    simp only [List.nil_append]
    by_cases h : R < acc + fwI d
    · right; left
      constructor
      · simp only [rowSplit]
        rw [if_pos h]
      · exact rowSplit_suffix R l2 acc
    · right; right
      have hrw : (rowSplit R acc (d :: l2)).2 =
          (rowSplit R (acc + fwI d) l2).2 := by
        simp only [rowSplit]
        rw [if_neg h]
      constructor
      · rw [hrw]
        exact rowSplit_mono R l2 (by linarith)
      · rw [hrw]
        exact rowSplit_suffix R l2 _
  | b :: l1', acc => by
    by_cases h : R < acc + fwI b
    · left
      refine ⟨b :: l1', List.suffix_refl _, ?_, ?_⟩
      · simp only [List.cons_append, rowSplit]
        rw [if_pos h]
        rfl
      · simp only [List.cons_append, rowSplit]
        rw [if_pos h]
        rfl
    · have h1 : (rowSplit R acc ((b :: l1') ++ d :: l2)).2 =
          (rowSplit R (acc + fwI b) (l1' ++ d :: l2)).2 := by
        simp only [List.cons_append, rowSplit]
        rw [if_neg h]
        rfl
      have h2 : (rowSplit R acc ((b :: l1') ++ l2)).2 =
          (rowSplit R (acc + fwI b) (l1' ++ l2)).2 := by
        simp only [List.cons_append, rowSplit]
        rw [if_neg h]
        rfl
      rw [h1, h2]
      rcases rowSplit_insert R d hd l2 l1' (acc + fwI b) with
        ⟨s, hssuf, hA, hB⟩ | hcase | hcase
      · exact Or.inl ⟨s, hssuf.trans (List.suffix_cons b l1'), hA, hB⟩
      · exact Or.inr (Or.inl hcase)
      · exact Or.inr (Or.inr hcase)

/-- Inserting an item into a descending list never decreases the greedy
packed total. -/
theorem T_insert (R : ℚ) :
    ∀ (n : ℕ) (l1 : List Item), l1.length ≤ n →
      ∀ (d : Item) (l2 : List Item),
        List.Sorted keyGE (l1 ++ d :: l2) →
        (∀ x ∈ l1 ++ d :: l2, 0 ≤ x.h ∧ 0 ≤ x.w) →
        T R (l1 ++ l2) ≤ T R (l1 ++ d :: l2) := by
  intro n
  induction n with
  | zero =>
    intro l1 hlen d l2 hsor hdims
    have : l1 = [] := List.length_eq_zero.mp (Nat.le_zero.mp hlen)
    subst this
    simp only [List.nil_append]
    exact T_suffix_le R (d :: l2).length (d :: l2) (le_refl _) hsor hdims
      l2 (List.suffix_cons d l2)
  | succ n ih =>
    intro l1 hlen d l2 hsor hdims
    cases l1 with
    | nil =>
      simp only [List.nil_append]
      exact T_suffix_le R (d :: l2).length (d :: l2) (le_refl _) hsor hdims
        l2 (List.suffix_cons d l2)
    | cons a l1' =>
      simp only [List.cons_append, T_cons]
      have hd : 0 ≤ fwI d := by
        have := (hdims d (List.mem_cons_of_mem a (List.mem_append_right l1'
          (List.mem_cons_self d l2)))).2
        have := margin_pos
        unfold fwI
        linarith
      have hsub_big : ∀ (u : List Item), u <:+ l1' ++ d :: l2 →
          List.Sorted keyGE u ∧ ∀ x ∈ u, 0 ≤ x.h ∧ 0 ≤ x.w := by
        intro u hu
        have hsl : List.Sublist u (a :: (l1' ++ d :: l2)) :=
          hu.sublist.trans (List.suffix_cons a _).sublist
        exact ⟨hsor.sublist hsl, fun x hx => hdims x (hsl.subset hx)⟩
      rcases rowSplit_insert R d hd l2 l1' (fwI a) with
        ⟨s, hssuf, hA, hB⟩ | ⟨hA, hB⟩ | ⟨h12, hsub⟩
      · rw [hA, hB]
        have hslen : s.length ≤ n := by
          have := hssuf.length_le
          simp only [List.length_cons] at hlen
          omega
        have hsuffix : s ++ d :: l2 <:+ l1' ++ d :: l2 := by
          obtain ⟨t, rfl⟩ := hssuf
          exact ⟨t, by simp⟩
        obtain ⟨hsor', hdims'⟩ := hsub_big (s ++ d :: l2) hsuffix
        have := ih s hslen d l2 hsor' hdims'
        linarith
      · rw [hA]
        have hl2 : l2 <:+ l1' ++ d :: l2 :=
          (List.suffix_cons d l2).trans (List.suffix_append l1' (d :: l2))
        obtain ⟨hsorl2, hdimsl2⟩ := hsub_big l2 hl2
        obtain ⟨hsordl2, hdimsdl2⟩ := hsub_big (d :: l2)
          (List.suffix_append l1' (d :: l2))
        have h1 := T_suffix_le R l2.length l2 (le_refl _) hsorl2 hdimsl2
          (rowSplit R (fwI a) (l1' ++ l2)).2 hB
        have h2 := T_suffix_le R (d :: l2).length (d :: l2) (le_refl _)
          hsordl2 hdimsdl2 l2 (List.suffix_cons d l2)
        linarith
      · have hSL : (rowSplit R (fwI a) (l1' ++ d :: l2)).2 <:+
            l1' ++ d :: l2 :=
          hsub.trans ((List.suffix_cons d l2).trans
            (List.suffix_append l1' (d :: l2)))
        obtain ⟨hsor', hdims'⟩ := hsub_big _ hSL
        have := T_suffix_le R
          (rowSplit R (fwI a) (l1' ++ d :: l2)).2.length _ (le_refl _)
          hsor' hdims' _ h12
        linarith

/-! ### Content length grows when artworks are appended -/

theorem content_append_mono (artworks : List Artwork) (x : Artwork) (R : ℚ)
    (hpos : ∀ a ∈ artworks ++ [x], 0 < a.print_w ∧ 0 < a.print_h) :
    (optimize_layout_distributed artworks R).2 ≤
      (optimize_layout_distributed (artworks ++ [x]) R).2 := by
  rw [optimize_snd_eq, optimize_snd_eq]
  have hmap : (artworks ++ [x]).map (orient R) =
      artworks.map (orient R) ++ [orient R x] := by simp
  rw [hmap]
  obtain ⟨l1, l2, h1, h2, -, -⟩ :=
    sortItems_append_single (orient R x) (artworks.map (orient R))
  rw [h1, h2]
  have hsorted : List.Sorted keyGE (l1 ++ orient R x :: l2) :=
    h2 ▸ sortItems_sorted (artworks.map (orient R) ++ [orient R x])
  have hdims : ∀ y ∈ l1 ++ orient R x :: l2, 0 ≤ y.h ∧ 0 ≤ y.w := by
    intro y hy
    have hy' : y ∈ sortItems ((artworks ++ [x]).map (orient R)) := by
      rw [hmap, h2]
      exact hy
    have := sorted_items_pos (artworks ++ [x]) R hpos y hy'
    exact ⟨le_of_lt this.2, le_of_lt this.1⟩
  have := T_insert R l1.length l1 (le_refl _) (orient R x) l2 hsorted hdims
  linarith

theorem content_replicate_mono (inventory : List Artwork)
    (last_item : Artwork) (R : ℚ)
    (hpos : ∀ a ∈ inventory, 0 < a.print_w ∧ 0 < a.print_h)
    (hlastpos : 0 < last_item.print_w ∧ 0 < last_item.print_h) :
    ∀ k : ℕ,
      (optimize_layout_distributed inventory R).2 ≤
        (optimize_layout_distributed
          (inventory ++ List.replicate k last_item) R).2
  | 0 => by simp
  | k + 1 => by
    have hstep := content_append_mono
      (inventory ++ List.replicate k last_item) last_item R
      (by
        intro a ha
        rcases List.mem_append.mp ha with ha | ha
        · rcases List.mem_append.mp ha with ha | ha
          · exact hpos a ha
          · rcases List.eq_of_mem_replicate ha with rfl
            exact hlastpos
        · rcases List.mem_singleton.mp ha with rfl
          exact hlastpos)
    have hik := content_replicate_mono inventory last_item R hpos hlastpos k
    have heq : (inventory ++ List.replicate k last_item) ++ [last_item] =
        inventory ++ List.replicate (k + 1) last_item := by
      rw [List.replicate_succ' k last_item, List.append_assoc]
    rw [heq] at hstep
    linarith

/-! ### What a successful auto-fill run asserts -/

theorem autoFillAux_some (R : ℚ) (B : ℤ) (last_item : Artwork) :
    ∀ (fuel : ℕ) (inv : List Artwork) (count N : ℕ),
      autoFillAux R B last_item inv fuel count = some N →
      ∃ j, N = count + j ∧
        (∀ i : ℕ, 1 ≤ i → i ≤ j →
          (optimize_layout_distributed
            (inv ++ List.replicate i last_item) R).2 ≤ (B : ℚ)) ∧
        (B : ℚ) < (optimize_layout_distributed
          (inv ++ List.replicate (j + 1) last_item) R).2
  | 0, _, _, _, h => absurd h (by simp [autoFillAux])
  | fuel + 1, inv, count, N, h => by
    rw [autoFillAux] at h
    by_cases hc : (B : ℚ) <
        (optimize_layout_distributed (inv ++ [last_item]) R).2
    · rw [if_pos hc] at h
      obtain rfl := Option.some_injective _ h
      refine ⟨0, by omega, by omega, ?_⟩
      simpa using hc
    · rw [if_neg hc] at h
      obtain ⟨j', hj', hle', hgt'⟩ :=
        autoFillAux_some R B last_item fuel (inv ++ [last_item])
          (count + 1) N h
      have hshift : ∀ i : ℕ,
          (inv ++ [last_item]) ++ List.replicate i last_item =
            inv ++ List.replicate (i + 1) last_item := by
        intro i
        rw [List.replicate_succ, ← List.append_cons]
      refine ⟨j' + 1, by omega, ?_, ?_⟩
      · intro i h1 h2
        cases i with
        | zero => omega
        | succ i' =>
          cases i' with
          | zero =>
            push_neg at hc
            simpa using hc
          | succ i'' =>
            have := hle' (i'' + 1) (by omega) (by omega)
            rwa [hshift (i'' + 1)] at this
      · have := hgt'
        rwa [hshift (j' + 1)] at this

/-- C5: if the auto-fill loop reports `N`, then appending `N` duplicates of
the last artwork leaves the billable length unchanged, while appending
`N + 1` strictly increases it. -/
theorem autoFill_maximality (R : ℚ) (inventory : List Artwork)
    (last_item : Artwork) (fuel N : ℕ)
    (hpos : ∀ a ∈ inventory, 0 < a.print_w ∧ 0 < a.print_h)
    (hlast : inventory.getLast? = some last_item)
    (hrun : autoFillCount R inventory fuel = some N) :
    billable_len (optimize_layout_distributed
        (inventory ++ List.replicate N last_item) R).2 =
      billable_len (optimize_layout_distributed inventory R).2 ∧
    billable_len (optimize_layout_distributed inventory R).2 <
      billable_len (optimize_layout_distributed
        (inventory ++ List.replicate (N + 1) last_item) R).2 := by
  have hlastmem : last_item ∈ inventory :=
    List.mem_of_mem_getLast? (by rw [hlast]; rfl)
  have hlastpos := hpos last_item hlastmem
  simp only [autoFillCount, hlast] at hrun
  obtain ⟨j, hjN, hle', hgt⟩ :=
    autoFillAux_some R _ last_item fuel inventory 0 N hrun
  obtain rfl : N = j := by omega
  constructor
  · apply billable_eq_of (billable_dvd _)
    · have h1 := billable_min (optimize_layout_distributed inventory R).2
      have h2 := content_replicate_mono inventory last_item R hpos hlastpos N
      linarith
    · cases N with
      | zero =>
        simpa using billable_ge (optimize_layout_distributed inventory R).2
      | succ n => exact hle' (n + 1) (by omega) (le_refl _)
  · exact billable_gt hgt

/-- Witness for C5: on the single 10×10 artwork inventory the loop
reports 1; one duplicate keeps the billable length, two increase it. -/
theorem autoFill_maximality_witness :
    billable_len (optimize_layout_distributed
        ([⟨"a", 10, 10⟩] ++ List.replicate 1 ⟨"a", 10, 10⟩) 22).2 =
      billable_len (optimize_layout_distributed [⟨"a", 10, 10⟩] 22).2 ∧
    billable_len (optimize_layout_distributed [⟨"a", 10, 10⟩] 22).2 <
      billable_len (optimize_layout_distributed
        ([⟨"a", 10, 10⟩] ++ List.replicate 2 ⟨"a", 10, 10⟩) 22).2 :=
  autoFill_maximality 22 [⟨"a", 10, 10⟩] ⟨"a", 10, 10⟩ 5 1
    (by
      intro a ha
      rcases List.mem_singleton.mp ha with rfl
      norm_num)
    rfl
    (by
      norm_num [autoFillCount, autoFillAux, billable_len,
        optimize_layout_distributed, sortItems, buildRows, buildRowsAux,
        placeRows, placeRow, placeRowAux, rowMaxH, sumW, fwI, orient,
        List.insertionSort, List.orderedInsert, MARGIN_IN,
        ceil_eval (43/48 : ℚ) 1 (by norm_num) (by norm_num)])

/-! ### Termination of the auto-fill loop -/

theorem row_len_bound (R : ℚ) (row : List Item) (hOK : RowOK R row)
    (hws : ∀ it ∈ row, 0 ≤ it.w) :
    (row.length : ℚ) ≤ max 1 (R / (2 * MARGIN_IN)) := by
  rcases hOK with h1 | h2
  · have : (row.length : ℚ) ≤ 1 := by exact_mod_cast h1
    exact le_trans this (le_max_left _ _)
  · have hM := margin_pos
    have hs := sumW_nonneg hws
    have heq := sumFW_eq_sumW row
    refine le_trans ?_ (le_max_right _ _)
    rw [le_div_iff₀ (by linarith : (0 : ℚ) < 2 * MARGIN_IN)]
    nlinarith

theorem rowsLen_ge_count :
    ∀ (rows : List (List Item)),
      (∀ row ∈ rows, ∀ it ∈ row, 0 ≤ it.h) →
      (rows.length : ℚ) * MARGIN_IN ≤ rowsLen rows
  | [], _ => by simp [rowsLen]
  | row :: rs, hh => by
    have h1 : 0 ≤ rowMaxH row :=
      rowMaxH_nonneg (hh row (List.mem_cons_self row rs))
    have h2 := rowsLen_ge_count rs
      (fun r hr => hh r (List.mem_cons_of_mem row hr))
    simp only [rowsLen, List.length_cons]
    push_cast
    linarith

theorem join_length_le :
    ∀ (rows : List (List Item)) (C : ℚ),
      (∀ row ∈ rows, (row.length : ℚ) ≤ C) →
      ((rows.join).length : ℚ) ≤ (rows.length : ℚ) * C
  | [], _, _ => by simp
  | row :: rs, C, hC => by
    have h1 := hC row (List.mem_cons_self row rs)
    have h2 := join_length_le rs C
      (fun r hr => hC r (List.mem_cons_of_mem row hr))
    simp only [List.join_cons, List.length_append, List.length_cons]
    push_cast
    push_cast at h2
    linarith

/-- Appending enough duplicates pushes the content length past any bound:
each item footprint is at least two margins, so rows hold boundedly many
items and each row adds at least one margin of height. -/
theorem content_unbounded (inventory : List Artwork) (last_item : Artwork)
    (R : ℚ)
    (hpos : ∀ a ∈ inventory, 0 < a.print_w ∧ 0 < a.print_h)
    (hlastpos : 0 < last_item.print_w ∧ 0 < last_item.print_h) (X : ℚ) :
    ∃ k : ℕ, X < (optimize_layout_distributed
      (inventory ++ List.replicate k last_item) R).2 := by
  have hM := margin_pos
  set C := max 1 (R / (2 * MARGIN_IN)) with hCdef
  have hC1 : (1 : ℚ) ≤ C := le_max_left _ _
  have hC0 : (0 : ℚ) < C := by linarith
  obtain ⟨k, hk⟩ := exists_nat_gt (C * (X / MARGIN_IN))
  refine ⟨k, ?_⟩
  have hposall : ∀ a ∈ inventory ++ List.replicate k last_item,
      0 < a.print_w ∧ 0 < a.print_h := by
    intro a ha
    rcases List.mem_append.mp ha with ha | ha
    · exact hpos a ha
    · rcases List.eq_of_mem_replicate ha with rfl
      exact hlastpos
  set arts := inventory ++ List.replicate k last_item with harts
  have hnk : (k : ℚ) ≤ (arts.length : ℚ) := by
    rw [harts]
    simp only [List.length_append, List.length_replicate]
    push_cast
    have h0 : (0 : ℚ) ≤ (inventory.length : ℚ) := Nat.cast_nonneg _
    linarith
  have hsorted_len :
      (sortItems (arts.map (orient R))).length = arts.length := by
    rw [(sortItems_perm _).length_eq, List.length_map]
  have hjoin := buildRows_join R (sortItems (arts.map (orient R)))
  have hrowbound : ∀ row ∈ buildRows R (sortItems (arts.map (orient R))),
      (row.length : ℚ) ≤ C := by
    intro row hrow
    apply row_len_bound R row (buildRows_rowOK R _ row hrow)
    intro it hit
    exact le_of_lt
      (sorted_items_pos arts R hposall it (buildRows_mem R hrow hit)).1
  have hcount : (arts.length : ℚ) ≤
      ((buildRows R (sortItems (arts.map (orient R)))).length : ℚ) * C := by
    have := join_length_le _ C hrowbound
    rw [hjoin, hsorted_len] at this
    exact this
  have hcontent : (optimize_layout_distributed arts R).2 =
      MARGIN_IN + rowsLen (buildRows R (sortItems (arts.map (orient R)))) := by
    simp only [optimize_layout_distributed]
    rw [placeRows_snd]
  have hrowslen :
      ((buildRows R (sortItems (arts.map (orient R)))).length : ℚ) *
        MARGIN_IN ≤
      rowsLen (buildRows R (sortItems (arts.map (orient R)))) := by
    apply rowsLen_ge_count
    intro row hrow it hit
    exact le_of_lt
      (sorted_items_pos arts R hposall it (buildRows_mem R hrow hit)).2
  set L := ((buildRows R (sortItems (arts.map (orient R)))).length : ℚ)
  have h1 : C * (X / MARGIN_IN) < L * C := by
    calc C * (X / MARGIN_IN) < (k : ℚ) := hk
      _ ≤ (arts.length : ℚ) := hnk
      _ ≤ L * C := hcount
  have h2 : X / MARGIN_IN < L := by
    rw [mul_comm C (X / MARGIN_IN)] at h1
    exact lt_of_mul_lt_mul_right h1 (le_of_lt hC0)
  have h3 : X < L * MARGIN_IN := by
    rw [div_lt_iff₀ hM] at h2
    exact h2
  rw [hcontent]
  linarith

theorem autoFillAux_term (R : ℚ) (B : ℤ) (last_item : Artwork) :
    ∀ (fuel : ℕ) (inv : List Artwork) (count : ℕ),
      (∃ j, j < fuel ∧ (B : ℚ) < (optimize_layout_distributed
        (inv ++ List.replicate (j + 1) last_item) R).2) →
      ∃ N, autoFillAux R B last_item inv fuel count = some N
  | 0, _, _, ⟨j, hj, _⟩ => absurd hj (Nat.not_lt_zero j)
  | fuel + 1, inv, count, ⟨j, hj, hgt⟩ => by
    rw [autoFillAux]
    by_cases hc : (B : ℚ) <
        (optimize_layout_distributed (inv ++ [last_item]) R).2
    · rw [if_pos hc]
      exact ⟨count, rfl⟩
    · rw [if_neg hc]
      cases j with
      | zero => exact absurd (by simpa using hgt) hc
      | succ j' =>
        apply autoFillAux_term R B last_item fuel (inv ++ [last_item])
          (count + 1)
        refine ⟨j', by omega, ?_⟩
        have hshift : (inv ++ [last_item]) ++
            List.replicate (j' + 1) last_item =
            inv ++ List.replicate (j' + 2) last_item := by
          rw [List.replicate_succ (n := j' + 1), ← List.append_cons]
        rw [hshift]
        exact hgt

/-- C10: on any non-empty inventory of positive-dimension artworks, the
auto-fill loop terminates: some fuel suffices to make it report a count. -/
theorem autoFill_terminates (R : ℚ) (inventory : List Artwork)
    (hne : inventory ≠ [])
    (hpos : ∀ a ∈ inventory, 0 < a.print_w ∧ 0 < a.print_h) :
    ∃ fuel N, autoFillCount R inventory fuel = some N := by
  obtain ⟨last_item, hlast⟩ :=
    Option.isSome_iff_exists.mp (List.getLast?_isSome.mpr hne)
  have hlastmem : last_item ∈ inventory :=
    List.mem_of_mem_getLast? (by rw [hlast]; rfl)
  obtain ⟨k, hk⟩ := content_unbounded inventory last_item R hpos
    (hpos last_item hlastmem)
    ((billable_len (optimize_layout_distributed inventory R).2 : ℤ) : ℚ)
  have hk1 : k ≠ 0 := by
    rintro rfl
    simp only [List.replicate_zero, List.append_nil] at hk
    have := billable_ge (optimize_layout_distributed inventory R).2
    linarith
  obtain ⟨j, rfl⟩ : ∃ j, k = j + 1 := ⟨k - 1, by omega⟩
  obtain ⟨N, hN⟩ := autoFillAux_term R
    (billable_len (optimize_layout_distributed inventory R).2) last_item
    (j + 1) inventory 0 ⟨j, by omega, hk⟩
  refine ⟨j + 1, N, ?_⟩
  simp only [autoFillCount, hlast]
  exact hN

/-- Witness for C10 on the single 10×10 artwork inventory. -/
theorem autoFill_terminates_witness :
    ∃ fuel N, autoFillCount 22 [⟨"a", 10, 10⟩] fuel = some N :=
  autoFill_terminates 22 [⟨"a", 10, 10⟩] (by simp)
    (by
      intro a ha
      rcases List.mem_singleton.mp ha with rfl
      norm_num)
